import Mathlib

/-!
Shallow embedding of src/packages/runtime/src/lifecycle.ts (aurelia runtime
lifecycle scheduler).

The six intrusive phase queues (BoundQueue, UnboundQueue, AttachedQueue,
DetachedQueue, MountQueue, UnmountQueue) have textually identical `add`,
`remove` and `process` bodies; they differ only in the names of the per-item
link fields they use (`prevBound`/`nextBound`, `prevUnbound`/`nextUnbound`,
`prevAttached`/`nextAttached`, `prevDetached`/`nextDetached`,
`prevMount`/`nextMount`, `prevUnmount`/`nextUnmount`) and in the callback each
invokes (`afterBind`, `afterUnbind`, `afterAttach`, `afterDetach`, `mount`,
`unmount`; MountQueue/UnmountQueue additionally keep a dead local counter
`i`).  The model below therefore embeds the shared mechanics once:

* controllers are identified by natural numbers;
* the heap of per-role link fields is a function `Nat → Link`;
* a queue's state is `QState` (`head`, `tail`, the link heap);
* a lifecycle callback is modelled by `CbAct`: it may do nothing, re-enter
  `add` on the same queue with a list of controllers, or raise — exactly the
  reentrancy shapes the spec's claims are about;
* JavaScript exception propagation is modelled with `Except`; the `TypeError`
  raised when `this.tail!.nextBound = controller` dereferences an undefined
  tail is the `QErr.crash` value;
* the unbounded `while`/`do-while` loops of `process` take an explicit fuel
  and return `none` when the fuel runs out, so that fuel exhaustion is never
  mistaken for program behaviour.
-/

set_option maxHeartbeats 1000000

/-- Errors a queue operation can surface: a lifecycle callback throwing
(`thrown`), or the TypeError raised when `add` writes through the
non-null-asserted `tail` while `tail` is `undefined` (`crash`). -/
inductive QErr where
  | thrown : QErr
  | crash : QErr
  deriving DecidableEq, Repr

/-- One controller's pair of intrusive link fields for a single queue role,
e.g. `prevBound`/`nextBound` on `IComponentController` (lifecycle.ts lines
121-129, 150-153).  `none` models `undefined`. -/
structure Link where
  prev : Option Nat
  next : Option Nat
  deriving DecidableEq, Repr

/-- State of one intrusive phase queue: the `head`/`tail` fields of the queue
object plus the heap of every controller's link fields for this queue's role
(lifecycle.ts lines 449-450). -/
structure QState where
  head : Option Nat
  tail : Option Nat
  link : Nat → Link

/-- The state of a freshly constructed queue over a heap in which no
controller has ever been linked: all link fields are `undefined`. -/
def initQ : QState :=
  { head := none, tail := none, link := fun _ => { prev := none, next := none } }

/-- Write `controller.prevBound = p` (for the role this queue owns). -/
def setPrevF (s : QState) (c : Nat) (p : Option Nat) : QState :=
  { s with link := fun n => if n = c then { prev := p, next := (s.link c).next } else s.link n }

/-- Write `controller.nextBound = x` (for the role this queue owns). -/
def setNextF (s : QState) (c : Nat) (x : Option Nat) : QState :=
  { s with link := fun n => if n = c then { prev := (s.link c).prev, next := x } else s.link n }

/-- `cur.nextBound = void 0; cur.prevBound = void 0` — clear both link fields
of one controller. -/
def clearLinks (s : QState) (c : Nat) : QState :=
  { s with link := fun n => if n = c then { prev := none, next := none } else s.link n }

/-- `BoundQueue.add` (lifecycle.ts lines 475-484); identical in the other five
queues.  If the list is nonempty but `tail` is `undefined` (a state the buggy
`remove` can produce), the statement `this.tail!.nextBound = controller`
dereferences `undefined` and raises a TypeError, modelled as `QErr.crash`. -/
def add (s : QState) (c : Nat) : Except QErr QState :=
  match s.head with
  | none => Except.ok { s with head := some c, tail := some c }
  | some _ =>
    match s.tail with
    | none => Except.error QErr.crash
    | some t =>
      Except.ok { setNextF (setPrevF s c (some t)) t (some c) with tail := some c }

/-- `BoundQueue.remove` (lifecycle.ts lines 486-501); identical in the other
five queues.  The source clears `controller.prevBound`/`controller.nextBound`
BEFORE the `this.tail === controller` / `this.head === controller` endpoint
checks read those very fields, so the endpoint updates always assign
`undefined`; the model reproduces that statement order exactly. -/
def remove (s : QState) (c : Nat) : QState :=
  -- if (controller.prevBound !== void 0) controller.prevBound.nextBound = controller.nextBound
  let s1 := match (s.link c).prev with
    | some p => setNextF s p (s.link c).next
    | none => s
  -- if (controller.nextBound !== void 0) controller.nextBound.prevBound = controller.prevBound
  let s2 := match (s1.link c).next with
    | some nx => setPrevF s1 nx (s1.link c).prev
    | none => s1
  -- controller.prevBound = void 0; controller.nextBound = void 0
  let s3 := clearLinks s2 c
  -- if (this.tail === controller) this.tail = controller.prevBound  (field just cleared)
  let t := if s3.tail = some c then (s3.link c).prev else s3.tail
  -- if (this.head === controller) this.head = controller.nextBound  (field just cleared)
  let h := if s3.head = some c then (s3.link c).next else s3.head
  { head := h, tail := t, link := s3.link }

/-- `add` over a whole list of controllers in order (a sequence of `add`
calls; the first TypeError aborts the sequence). -/
def addList (s : QState) (cs : List Nat) : Except QErr QState :=
  List.foldlM add s cs

/-- What a controller's lifecycle callback does to the queue that is invoking
it: nothing, reentrant `add` of the given controllers (in order) to this same
queue, or raising an error. -/
inductive CbAct where
  | pure : CbAct
  | addAll : List Nat → CbAct
  | throwE : CbAct

/-- Run one callback's queue effect. -/
def runCb (s : QState) (a : CbAct) : Except QErr QState :=
  match a with
  | CbAct.pure => Except.ok s
  | CbAct.addAll cs => addList s cs
  | CbAct.throwE => Except.error QErr.thrown

/-- The inner `do { cur.afterBind(flags); next = cur.nextBound;
cur.nextBound = void 0; cur.prevBound = void 0; cur = next!; } while (cur !==
void 0)` walk of `BoundQueue.process` (lifecycle.ts lines 508-515).  The
callback runs first, `next` is read from the live heap only after the
callback returns, then `cur`'s links are cleared.  `emit` tags the invoked
controller in the trace (so that one definition serves the differently named
callbacks of the six queues).  First argument is fuel; `none` means the fuel
ran out. -/
def walk {E : Type} (cb : Nat → CbAct) (emit : Nat → E) :
    Nat → Nat → QState → List E → Option (Except QErr Unit × QState × List E)
  | 0, _, _, _ => none
  | fuel + 1, cur, s, tr =>
    let tr1 := tr ++ [emit cur]
    match runCb s (cb cur) with
    | Except.error e => some (Except.error e, s, tr1)
    | Except.ok s1 =>
      match (s1.link cur).next with
      | none => some (Except.ok (), clearLinks s1 cur, tr1)
      | some c2 => walk cb emit fuel c2 (clearLinks s1 cur) tr1

/-- `BoundQueue.process` (lifecycle.ts lines 503-517); identical in the other
five queues.  The outer `while (this.head !== void 0)` loop snapshots the
head, resets the live `head`/`tail` to `undefined`, walks the snapshot, and
then RE-CHECKS the live head — so items added reentrantly during a callback
are drained by a further round of this same call.  `rf` is fuel for the outer
loop, `wf` fuel for each inner walk. -/
def processQ {E : Type} (cb : Nat → CbAct) (emit : Nat → E) :
    Nat → Nat → QState → List E → Option (Except QErr Unit × QState × List E)
  | 0, _, _, _ => none
  | rf + 1, wf, s, tr =>
    match s.head with
    | none => some (Except.ok (), s, tr)
    | some h =>
      match walk cb emit wf h { head := none, tail := none, link := s.link } tr with
      | none => none
      | some (Except.error e, s1, tr1) => some (Except.error e, s1, tr1)
      | some (Except.ok _, s1, tr1) => processQ cb emit rf wf s1 tr1

/-- An auto queue: the intrusive list plus the reentrancy `depth` counter
(lifecycle.ts line 447).  `depth` is an `Int` because `--this.depth` is not
guarded against going negative. -/
structure AutoQ where
  q : QState
  depth : Int

/-- `BoundQueue.begin` (lifecycle.ts lines 456-458): `++this.depth`. -/
def beginQ (a : AutoQ) : AutoQ :=
  { a with depth := a.depth + 1 }

/-- `BoundQueue.end` (lifecycle.ts lines 460-467): `if (--this.depth === 0)
this.process(flags)`.  Returns the process status, the queue after, and the
trace of callbacks the triggered drain invoked (empty when no drain was
triggered). -/
def endQ (cb : Nat → CbAct) (rf wf : Nat) (a : AutoQ) :
    Option (Except QErr Unit × AutoQ × List Nat) :=
  if a.depth - 1 = 0 then
    match processQ cb (fun n => n) rf wf a.q [] with
    | none => none
    | some (st, s1, tr) => some (st, { q := s1, depth := a.depth - 1 }, tr)
  else some (Except.ok (), { q := a.q, depth := a.depth - 1 }, [])

/-- `BoundQueue.inline` (lifecycle.ts lines 469-473): literally `this.begin();
fn(); this.end(flags)` with NO try/finally.  The caller-supplied `fn` is an
arbitrary state transformer that may throw (carrying the state at the throw
point); when it throws, the error propagates and `end` is never invoked. -/
def inlineQ (cb : Nat → CbAct) (rf wf : Nat)
    (fn : AutoQ → Except (QErr × AutoQ) AutoQ) (a : AutoQ) :
    Option (Except QErr Unit × AutoQ × List Nat) :=
  match fn (beginQ a) with
  | Except.error (e, a2) => some (Except.error e, a2, [])
  | Except.ok a2 => endQ cb rf wf a2

/-- Tagged callback-invocation events for the Attach/Mount and Detach/Unmount
pairs: `mount`, `afterAttach`, `unmount`, `afterDetach` of a controller. -/
inductive Ev where
  | mnt : Nat → Ev
  | att : Nat → Ev
  | unm : Nat → Ev
  | det : Nat → Ev
  deriving DecidableEq, Repr

/-- An auto queue wired to its manual render queue, as `AttachedQueue` holds
`this.lifecycle.mount` and `DetachedQueue` holds `this.lifecycle.unmount`. -/
structure ChainedQ where
  renderQ : QState
  phaseQ : QState
  depth : Int

/-- `AttachedQueue.end` / `DetachedQueue.end` (lifecycle.ts lines 608-617 and
684-693): `if (--this.depth === 0) { this.lifecycle.mount.process(flags);
this.process(flags); }` — the manual render queue is drained first, then the
auto queue's own callbacks run, with one shared chronological trace.  `em`
tags render-queue events, `ep` tags phase-queue events. -/
def chainedEnd (em ep : Nat → Ev) (cbM cbP : Nat → CbAct) (rf wf : Nat)
    (p : ChainedQ) : Option (Except QErr Unit × ChainedQ × List Ev) :=
  if p.depth - 1 = 0 then
    match processQ cbM em rf wf p.renderQ [] with
    | none => none
    | some (Except.error e, m1, tr) =>
      some (Except.error e, { renderQ := m1, phaseQ := p.phaseQ, depth := p.depth - 1 }, tr)
    | some (Except.ok _, m1, tr) =>
      match processQ cbP ep rf wf p.phaseQ tr with
      | none => none
      | some (st, q1, tr2) =>
        some (st, { renderQ := m1, phaseQ := q1, depth := p.depth - 1 }, tr2)
  else some (Except.ok (), { renderQ := p.renderQ, phaseQ := p.phaseQ, depth := p.depth - 1 }, [])

/-- `AttachedQueue.end`: `renderQ` is the Mount queue, `phaseQ` the Attach
list; `mount` events then `afterAttach` events. -/
def endA : (Nat → CbAct) → (Nat → CbAct) → Nat → Nat → ChainedQ →
    Option (Except QErr Unit × ChainedQ × List Ev) :=
  chainedEnd Ev.mnt Ev.att

/-- `DetachedQueue.end`: `renderQ` is the Unmount queue, `phaseQ` the Detach
list; `unmount` events then `afterDetach` events. -/
def endD : (Nat → CbAct) → (Nat → CbAct) → Nat → Nat → ChainedQ →
    Option (Except QErr Unit × ChainedQ × List Ev) :=
  chainedEnd Ev.unm Ev.det

/-- `BatchQueue` state (lifecycle.ts lines 858-860): a plain resizable array
of batchable items (duplicates allowed) plus the `depth` counter. -/
structure BState where
  queue : List Nat
  depth : Int
  deriving DecidableEq, Repr

/-- `BatchQueue.add` (lifecycle.ts lines 885-887): `this.queue.push(requestor)`. -/
def bAdd (s : BState) (c : Nat) : BState :=
  { s with queue := s.queue ++ [c] }

/-- `BatchQueue.remove` (lifecycle.ts lines 889-894): `indexOf` + `splice`,
i.e. delete the first occurrence if present, no-op otherwise. -/
def bRemove (s : BState) (c : Nat) : BState :=
  { s with queue := s.queue.erase c }

/-- Queue effect of one `flushBatch` callback on the batch queue itself. -/
def bRunCb (s : BState) (a : CbAct) : Except QErr BState :=
  match a with
  | CbAct.pure => Except.ok s
  | CbAct.addAll cs => Except.ok { s with queue := s.queue ++ cs }
  | CbAct.throwE => Except.error QErr.thrown

/-- The `for (let i = 0; i < length; ++i) batch[i].flushBatch(flags)` loop of
`BatchQueue.process` over one snapshot; the trace records each invoked item
together with the flags value it was passed. -/
def bRound (cb : Nat → CbAct) (f2 : Nat) :
    List Nat → BState → List (Nat × Nat) → Except QErr Unit × BState × List (Nat × Nat)
  | [], s, tr => (Except.ok (), s, tr)
  | i :: rest, s, tr =>
    match bRunCb s (cb i) with
    | Except.error e => (Except.error e, s, tr ++ [(i, f2)])
    | Except.ok s1 => bRound cb f2 rest s1 (tr ++ [(i, f2)])

/-- The `while (this.queue.length > 0)` loop of `BatchQueue.process`: snapshot
the array (`slice`), clear the live array, flush the snapshot, repeat until
the live array stays empty.  Fueled; `none` means fuel ran out. -/
def bLoop (cb : Nat → CbAct) (f2 : Nat) :
    Nat → BState → List (Nat × Nat) → Option (Except QErr Unit × BState × List (Nat × Nat))
  | 0, _, _ => none
  | fuel + 1, s, tr =>
    match s.queue with
    | [] => some (Except.ok (), s, tr)
    | _ =>
      match bRound cb f2 s.queue { s with queue := [] } tr with
      | (Except.error e, s1, tr1) => some (Except.error e, s1, tr1)
      | (Except.ok _, s1, tr1) => bLoop cb f2 fuel s1 tr1

/-- `BatchQueue.process` (lifecycle.ts lines 896-906): first
`flags |= LifecycleFlags.fromBatch`, then the round loop.  The numeric value
of `LifecycleFlags.fromBatch` lives in flags.ts, which is not among the
provided sources, so the marker bit is a parameter `marker` and flags are
natural-number bitsets combined with bitwise or. -/
def bProcess (cb : Nat → CbAct) (marker f : Nat) (fuel : Nat) (s : BState)
    (tr : List (Nat × Nat)) : Option (Except QErr Unit × BState × List (Nat × Nat)) :=
  bLoop cb (f ||| marker) fuel s tr

/-- `BatchQueue.end` (lifecycle.ts lines 870-877): same depth-counted trigger
as the phase auto queues. -/
def bEndQ (cb : Nat → CbAct) (marker f rf : Nat) (s : BState) :
    Option (Except QErr Unit × BState × List (Nat × Nat)) :=
  if s.depth - 1 = 0 then
    bProcess cb marker f rf { s with depth := s.depth - 1 } []
  else some (Except.ok (), { s with depth := s.depth - 1 }, [])

/-- `BatchQueue.inline` (lifecycle.ts lines 879-883): literally `this.begin();
fn(); this.end(flags)` with no try/finally, like the phase queues. -/
def bInlineQ (cb : Nat → CbAct) (marker f rf : Nat)
    (fn : BState → Except (QErr × BState) BState) (s : BState) :
    Option (Except QErr Unit × BState × List (Nat × Nat)) :=
  match fn { s with depth := s.depth + 1 } with
  | Except.error (e, s2) => some (Except.error e, s2, [])
  | Except.ok s2 => bEndQ cb marker f rf s2

/-- The callback assignment in which every controller's callback leaves the
queue untouched. -/
def cbPure : Nat → CbAct := fun _ => CbAct.pure

/-- Callback assignment in which controller `x` reentrantly adds `cs` to the
same queue and every other controller's callback does nothing. -/
def cbOne (x : Nat) (cs : List Nat) : Nat → CbAct :=
  fun n => if n = x then CbAct.addAll cs else CbAct.pure

/-- Callback assignment in which controller `e` throws and every other
controller's callback does nothing. -/
def cbThrowAt (e : Nat) : Nat → CbAct :=
  fun n => if n = e then CbAct.throwE else CbAct.pure

/-- The successor of `n`'s first occurrence in `cs` (`undefined` when `n` is
absent or last): the `next` link field of a correctly linked chain. -/
def nextOf : List Nat → Nat → Option Nat
  | [], _ => none
  | a :: t, n => if n = a then t.head? else nextOf t n

/-- The predecessor of `n` in `cs` (`undefined` when `n` is absent or first):
the `prev` link field of a correctly linked chain.  The predecessor in `cs`
is the successor in the reversed list. -/
def prevOf (cs : List Nat) (n : Nat) : Option Nat :=
  nextOf cs.reverse n

/-- `RepQ s cs`: the queue state `s` is a correctly linked intrusive list
holding exactly the controllers `cs` in order — `head`/`tail` delimit `cs`
and every controller's link fields are its neighbours in `cs` (so every
controller outside `cs` has both fields `undefined`). -/
def RepQ (s : QState) (cs : List Nat) : Prop :=
  s.head = cs.head? ∧ s.tail = cs.getLast? ∧
    ∀ n, s.link n = { prev := prevOf cs n, next := nextOf cs n }

/-- The forward `next`-chain property the snapshot walk of `process` relies
on: consecutive elements are linked and the last element's `next` is
`undefined`. -/
def NextChain (lnk : Nat → Link) : List Nat → Prop
  | [] => True
  | [a] => (lnk a).next = none
  | a :: b :: t => (lnk a).next = some b ∧ NextChain lnk (b :: t)

/-! ### List-level facts about `nextOf` and `prevOf` -/

theorem nextOf_not_mem {cs : List Nat} {n : Nat} (h : n ∉ cs) : nextOf cs n = none := by
  induction cs with
  | nil => rfl
  | cons a t ih =>
    have hna : n ≠ a := fun e => h (e ▸ List.mem_cons_self a t)
    have hnt : n ∉ t := fun m => h (List.mem_cons_of_mem _ m)
    simp [nextOf, hna, ih hnt]

theorem prevOf_not_mem {cs : List Nat} {n : Nat} (h : n ∉ cs) : prevOf cs n = none :=
  nextOf_not_mem (by simpa using h)

theorem nextOf_cons_self (b : Nat) (l : List Nat) : nextOf (b :: l) b = l.head? := by
  simp [nextOf]

theorem nextOf_append_right {l : List Nat} (r : List Nat) {n : Nat} (h : n ∉ l) :
    nextOf (l ++ r) n = nextOf r n := by
  induction l with
  | nil => rfl
  | cons a t ih =>
    have hna : n ≠ a := fun e => h (e ▸ List.mem_cons_self a t)
    have hnt : n ∉ t := fun m => h (List.mem_cons_of_mem _ m)
    simp [nextOf, hna, ih hnt]

theorem nextOf_append_mem {l : List Nat} (r : List Nat) {n : Nat}
    (nd : l.Nodup) (hm : n ∈ l) :
    nextOf (l ++ r) n = if some n = l.getLast? then r.head? else nextOf l n := by
  induction l with
  | nil => cases hm
  | cons a t ih =>
    by_cases hna : n = a
    · subst hna
      cases t with
      | nil => simp [nextOf]
      | cons b t' =>
        have hnt : n ∉ b :: t' := (List.nodup_cons.mp nd).1
        have hne : some n ≠ (b :: t').getLast? := by
          intro hEq
          rw [List.getLast?_eq_getLast _ (by simp)] at hEq
          exact hnt (by rw [Option.some.inj hEq]; exact List.getLast_mem _)
        have hl : (n :: b :: t').getLast? = (b :: t').getLast? := List.getLast?_cons_cons ..
        have lhs : nextOf ((n :: b :: t') ++ r) n = some b := by simp [nextOf]
        have rhs : nextOf (n :: b :: t') n = some b := by simp [nextOf]
        rw [lhs, hl, if_neg hne, rhs]
    · have hmt : n ∈ t := by
        rcases List.mem_cons.mp hm with h1 | h2
        · exact absurd h1 hna
        · exact h2
      have hte : t ≠ [] := by rintro rfl; cases hmt
      have hlast : (a :: t).getLast? = t.getLast? := by
        cases t with
        | nil => exact absurd rfl hte
        | cons b t' => exact List.getLast?_cons_cons ..
      have step : nextOf ((a :: t) ++ r) n = nextOf (t ++ r) n := by
        simp [nextOf, hna]
      have step2 : nextOf (a :: t) n = nextOf t n := by
        simp [nextOf, hna]
      rw [step, ih (List.nodup_cons.mp nd).2 hmt, hlast, step2]

theorem prevOf_append_left {l : List Nat} (r : List Nat) {n : Nat} (h : n ∉ r) :
    prevOf (l ++ r) n = prevOf l n := by
  unfold prevOf
  rw [List.reverse_append]
  exact nextOf_append_right _ (by simpa using h)

theorem prevOf_boundary {l : List Nat} (t : List Nat) {n : Nat} (h : n ∉ t) :
    prevOf (l ++ n :: t) n = l.getLast? := by
  unfold prevOf
  rw [List.reverse_append, List.reverse_cons, List.append_assoc,
    nextOf_append_right _ (by simpa using h)]
  rw [List.singleton_append, nextOf_cons_self, List.head?_reverse]

/-! ### `add` builds a correctly linked chain -/

theorem repQ_initQ : RepQ initQ [] := by
  refine ⟨rfl, rfl, fun n => ?_⟩
  simp [initQ, prevOf, nextOf]

theorem add_repQ {s : QState} {cs : List Nat} (h : RepQ s cs) {c : Nat}
    (hc : c ∉ cs) (nd : cs.Nodup) :
    ∃ s1, add s c = Except.ok s1 ∧ RepQ s1 (cs ++ [c]) := by
  obtain ⟨hh, ht, hl⟩ := h
  cases cs with
  | nil =>
    refine ⟨{ s with head := some c, tail := some c }, ?_, ?_, ?_, ?_⟩
    · simp only [add, hh, List.head?_nil]
    · rfl
    · rfl
    · intro n
      rw [hl n]
      by_cases hnc : n = c <;> simp [prevOf, nextOf, hnc]
  | cons a t =>
    have hne : (a :: t) ≠ [] := by simp
    set L := (a :: t).getLast hne with hL
    have hLmem : L ∈ a :: t := List.getLast_mem hne
    have hLc : L ≠ c := fun e => hc (e ▸ hLmem)
    have htL : s.tail = some L := by rw [ht, List.getLast?_eq_getLast _ hne]
    have hcnext : (s.link c).next = none := by rw [hl c]; exact nextOf_not_mem hc
    have hLgl : (a :: t).getLast? = some L := List.getLast?_eq_getLast _ hne
    refine ⟨{ setNextF (setPrevF s c (some L)) L (some c) with tail := some c },
      ?_, ?_, ?_, ?_⟩
    · simp only [add, hh, List.head?_cons, htL]
    · -- head is untouched by the two link-field writes
      simpa [setNextF, setPrevF] using hh
    · -- tail becomes the appended controller
      simp only [List.getLast?_concat]
    · intro n
      by_cases hnL : n = L
      · rw [hnL]
        have h1 : prevOf ((a :: t) ++ [c]) L = prevOf (a :: t) L :=
          prevOf_append_left [c] (by simpa using hLc)
        have h2 : nextOf ((a :: t) ++ [c]) L = some c := by
          rw [nextOf_append_mem [c] nd hLmem, if_pos hLgl.symm]
          rfl
        rw [h1, h2]
        simp only [setNextF, setPrevF, if_pos rfl]
        rw [if_neg hLc, hl L]
        simp
      · by_cases hnc : n = c
        · rw [hnc]
          have h1 : prevOf ((a :: t) ++ [c]) c = some L := by
            have hb := @prevOf_boundary (a :: t) [] c (by simp)
            rw [hb, hLgl]
          have h2 : nextOf ((a :: t) ++ [c]) c = none := by
            rw [nextOf_append_right _ hc, nextOf_cons_self]
            rfl
          rw [h1, h2]
          have hcL : c ≠ L := fun e => hLc e.symm
          simp only [setNextF, setPrevF]
          rw [if_neg hcL]
          simp [hcnext]
        · have h1 : prevOf ((a :: t) ++ [c]) n = prevOf (a :: t) n :=
            prevOf_append_left [c] (by simpa using hnc)
          have h2 : nextOf ((a :: t) ++ [c]) n = nextOf (a :: t) n := by
            by_cases hmem : n ∈ a :: t
            · rw [nextOf_append_mem [c] nd hmem, if_neg]
              rw [hLgl]
              exact fun e => hnL (Option.some.inj e)
            · rw [nextOf_not_mem hmem, nextOf_append_right _ hmem, nextOf_not_mem]
              simp [hnc]
          rw [h1, h2]
          simp only [setNextF, setPrevF]
          rw [if_neg hnL, if_neg hnc, hl n]

theorem addList_repQ_aux :
    ∀ (ds l : List Nat) (s : QState), RepQ s l → (l ++ ds).Nodup →
      ∃ s1, addList s ds = Except.ok s1 ∧ RepQ s1 (l ++ ds)
  | [], l, s, h, _ => ⟨s, rfl, by simpa using h⟩
  | c :: ds', l, s, h, nd => by
    have hcl : c ∉ l := by
      have hd := List.disjoint_of_nodup_append nd
      exact fun hm => (hd hm) (List.mem_cons_self c ds')
    have hln : l.Nodup := List.Nodup.of_append_left nd
    obtain ⟨s1, hadd, hrep⟩ := add_repQ h hcl hln
    have hassoc : l ++ c :: ds' = (l ++ [c]) ++ ds' := by simp
    have nd2 : ((l ++ [c]) ++ ds').Nodup := by rw [← hassoc]; exact nd
    obtain ⟨s2, hfold, hrep2⟩ := addList_repQ_aux ds' (l ++ [c]) s1 hrep nd2
    refine ⟨s2, ?_, by rw [hassoc]; exact hrep2⟩
    show addList s (c :: ds') = Except.ok s2
    unfold addList
    rw [List.foldlM_cons, hadd]
    exact hfold

/-- A `Nodup` sequence of `add` calls on a fresh queue succeeds and builds the
correctly linked chain of exactly those controllers in order. -/
theorem addList_repQ {cs : List Nat} (nd : cs.Nodup) :
    ∃ s, addList initQ cs = Except.ok s ∧ RepQ s cs := by
  have := addList_repQ_aux cs [] initQ repQ_initQ (by simpa using nd)
  simpa using this

/-! ### The snapshot walk over a correctly linked chain -/

theorem chain_congr {lnk lnk' : Nat → Link} :
    ∀ {l : List Nat}, NextChain lnk l → (∀ n ∈ l, lnk' n = lnk n) → NextChain lnk' l
  | [], _, _ => trivial
  | [a], h, hc => by
    simp only [NextChain] at h ⊢
    rw [hc a (by simp)]
    exact h
  | a :: b :: t, h, hc => by
    simp only [NextChain] at h ⊢
    refine ⟨?_, chain_congr h.2 fun n hn => hc n (List.mem_cons_of_mem _ hn)⟩
    rw [hc a (by simp)]
    exact h.1

theorem chain_of_next {lnk : Nat → Link} :
    ∀ {cs : List Nat}, cs.Nodup → (∀ n ∈ cs, (lnk n).next = nextOf cs n) →
      NextChain lnk cs
  | [], _, _ => trivial
  | [a], _, h => by
    simp only [NextChain]
    rw [h a (by simp)]
    simp [nextOf]
  | a :: b :: t, nd, h => by
    simp only [NextChain]
    constructor
    · rw [h a (by simp), nextOf_cons_self]
      rfl
    · have hna : a ∉ b :: t := (List.nodup_cons.mp nd).1
      refine chain_of_next (List.nodup_cons.mp nd).2 fun n hn => ?_
      have hne : n ≠ a := fun e => hna (e ▸ hn)
      rw [h n (List.mem_cons_of_mem _ hn)]
      simp [nextOf, hne]

theorem repQ_chain {s : QState} {cs : List Nat} (h : RepQ s cs) (nd : cs.Nodup) :
    NextChain s.link cs :=
  chain_of_next nd fun n _ => by rw [h.2.2 n]

theorem walk_pure {E : Type} (cb : Nat → CbAct) (emit : Nat → E) :
    ∀ (t : List Nat) (a : Nat) (s : QState) (tr : List E) (fuel : Nat),
      NextChain s.link (a :: t) → (a :: t).Nodup →
      (∀ n ∈ a :: t, cb n = CbAct.pure) → t.length < fuel →
      ∃ s1, walk cb emit fuel a s tr =
          some (Except.ok (), s1, tr ++ (a :: t).map emit) ∧
        s1.head = s.head ∧ s1.tail = s.tail ∧
        (∀ n ∈ a :: t, s1.link n = { prev := none, next := none }) ∧
        (∀ n, n ∉ a :: t → s1.link n = s.link n)
  | t, _, _, _, 0, _, _, _, hlen => absurd hlen (Nat.not_lt_zero _)
  | [], a, s, tr, fuel + 1, hch, _, hcb, _ => by
    have hnx : (s.link a).next = none := by simpa [NextChain] using hch
    refine ⟨clearLinks s a, ?_, rfl, rfl, ?_, ?_⟩
    · simp only [walk, runCb, hcb a (by simp), hnx]
      simp
    · intro n hn
      have : n = a := by simpa using hn
      simp [clearLinks, this]
    · intro n hn
      have : n ≠ a := by simpa using hn
      simp [clearLinks, this]
  | b :: t', a, s, tr, fuel + 1, hch, nd, hcb, hlen => by
    have hch1 : (s.link a).next = some b ∧ NextChain s.link (b :: t') := by
      simpa [NextChain] using hch
    have hna : a ∉ b :: t' := (List.nodup_cons.mp nd).1
    have nd' : (b :: t').Nodup := (List.nodup_cons.mp nd).2
    have hch2 : NextChain (clearLinks s a).link (b :: t') :=
      chain_congr hch1.2 fun n hn => by
        have hne : n ≠ a := fun e => hna (e ▸ hn)
        simp [clearLinks, hne]
    obtain ⟨s1, hw, hh1, ht1, hin, hout⟩ :=
      walk_pure cb emit t' b (clearLinks s a) (tr ++ [emit a]) fuel hch2 nd'
        (fun n hn => hcb n (List.mem_cons_of_mem _ hn))
        (Nat.lt_of_succ_lt_succ hlen)
    refine ⟨s1, ?_, ?_, ?_, ?_, ?_⟩
    · simp only [walk, runCb, hcb a (by simp), hch1.1]
      rw [hw]
      simp
    · rw [hh1]; rfl
    · rw [ht1]; rfl
    · intro n hn
      rcases List.mem_cons.mp hn with h1 | h2
      · rw [h1, hout a hna]
        simp [clearLinks]
      · exact hin n h2
    · intro n hn
      have h1 : n ≠ a := fun e => hn (e ▸ List.mem_cons_self a _)
      have h2 : n ∉ b :: t' := fun m => hn (List.mem_cons_of_mem _ m)
      rw [hout n h2]
      simp [clearLinks, h1]

/-- One `process` call on a correctly linked chain with callbacks that do not
touch the queue: every queued controller's callback is invoked exactly once,
in append order, and the queue ends empty with every link field cleared
(`RepQ s1 []`). -/
theorem processQ_pure {E : Type} {cb : Nat → CbAct} (emit : Nat → E)
    {s : QState} {cs : List Nat} (h : RepQ s cs) (nd : cs.Nodup)
    (hcb : ∀ n ∈ cs, cb n = CbAct.pure) {rf wf : Nat} (hrf : 2 ≤ rf)
    (hwf : cs.length ≤ wf) (tr : List E) :
    ∃ s1, processQ cb emit rf wf s tr = some (Except.ok (), s1, tr ++ cs.map emit) ∧
      RepQ s1 [] := by
  obtain ⟨hh, ht, hl⟩ := h
  cases cs with
  | nil =>
    rcases rf with _ | rf
    · exact absurd hrf (by simp)
    refine ⟨s, ?_, hh, ht, hl⟩
    simp only [processQ, hh, List.head?_nil]
    simp
  | cons a t =>
    rcases rf with _ | rf
    · exact absurd hrf (by simp)
    have hrf1 : 1 ≤ rf := by omega
    have hch : NextChain (QState.link { head := none, tail := none, link := s.link }) (a :: t) :=
      @repQ_chain s (a :: t) ⟨hh, ht, hl⟩ nd
    obtain ⟨s1, hw, hh1, ht1, hin, hout⟩ :=
      walk_pure cb emit t a { head := none, tail := none, link := s.link } tr wf hch nd hcb
        (by simp only [List.length_cons] at hwf; omega)
    have hrep1 : RepQ s1 [] := by
      refine ⟨by simp [hh1], by simp [ht1], fun n => ?_⟩
      by_cases hn : n ∈ a :: t
      · rw [hin n hn]
        simp [prevOf, nextOf]
      · rw [hout n hn]
        have : s.link n = { prev := prevOf (a :: t) n, next := nextOf (a :: t) n } := hl n
        rw [show (QState.link { head := none, tail := none, link := s.link }) n = s.link n from rfl,
          this, prevOf_not_mem hn, nextOf_not_mem hn]
        simp [prevOf, nextOf]
    refine ⟨s1, ?_, hrep1⟩
    simp only [processQ, hh, List.head?_cons]
    rw [hw]
    rcases rf with _ | rf'
    · exact absurd hrf1 (by simp)
    simp only [processQ, hrep1.1, List.head?_nil]

theorem walk_err {E : Type} (cb : Nat → CbAct) (emit : Nat → E) {e : Nat}
    (hth : cb e = CbAct.throwE) :
    ∀ (l1 l2 : List Nat) (a : Nat) (t : List Nat) (s : QState) (tr : List E) (fuel : Nat),
      a :: t = l1 ++ e :: l2 → NextChain s.link (a :: t) → (a :: t).Nodup →
      (∀ n ∈ l1, cb n = CbAct.pure) → t.length < fuel →
      ∃ s1, walk cb emit fuel a s tr =
          some (Except.error QErr.thrown, s1, tr ++ (l1 ++ [e]).map emit) ∧
        s1.head = s.head ∧ s1.tail = s.tail ∧
        (∀ n ∈ l1, s1.link n = { prev := none, next := none }) ∧
        (∀ n, n ∉ l1 → s1.link n = s.link n)
  | _, _, _, t, _, _, 0, _, _, _, _, hlen => absurd hlen (Nat.not_lt_zero _)
  | [], l2, a, t, s, tr, fuel + 1, heq, _, _, _, _ => by
    have ha : a = e := (show a = e ∧ t = l2 by simpa using heq).1
    refine ⟨s, ?_, rfl, rfl, by simp, fun n _ => rfl⟩
    simp only [walk, runCb, ha, hth]
    simp
  | a1 :: l1', l2, a, t, s, tr, fuel + 1, heq, hch, nd, hcb, hlen => by
    have ha : a = a1 := (show a = a1 ∧ t = l1' ++ e :: l2 by simpa using heq).1
    have ht2 : t = l1' ++ e :: l2 := (show a = a1 ∧ t = l1' ++ e :: l2 by simpa using heq).2
    cases t with
    | nil => exact absurd ht2.symm (by simp)
    | cons b t2 =>
      have hch1 : (s.link a).next = some b ∧ NextChain s.link (b :: t2) := by
        simpa [NextChain] using hch
      have hna : a ∉ b :: t2 := (List.nodup_cons.mp nd).1
      have nd' : (b :: t2).Nodup := (List.nodup_cons.mp nd).2
      have hna1 : a ∉ l1' := fun hm => hna (ht2 ▸ List.mem_append_left _ hm)
      have hch2 : NextChain (clearLinks s a).link (b :: t2) :=
        chain_congr hch1.2 fun n hn => by
          have hne : n ≠ a := fun hEq => hna (hEq ▸ hn)
          simp [clearLinks, hne]
      obtain ⟨s1, hw, hh1, ht1, hin, hout⟩ :=
        walk_err cb emit hth l1' l2 b t2 (clearLinks s a) (tr ++ [emit a]) fuel
          (by rw [ht2]) hch2 nd'
          (fun n hn => hcb n (List.mem_cons_of_mem _ hn))
          (Nat.lt_of_succ_lt_succ hlen)
      refine ⟨s1, ?_, ?_, ?_, ?_, ?_⟩
      · have hpa : cb a = CbAct.pure := ha ▸ hcb a1 (by simp)
        simp only [walk, runCb, hpa, hch1.1]
        rw [hw, ha]
        simp
      · rw [hh1]; rfl
      · rw [ht1]; rfl
      · intro n hn
        rcases List.mem_cons.mp hn with h1 | h2
        · rw [h1, ← ha, hout a hna1]
          simp [clearLinks]
        · exact hin n h2
      · intro n hn
        have h1 : n ≠ a := fun hEq => hn (by rw [hEq, ha]; exact List.mem_cons_self _ _)
        have h2 : n ∉ l1' := fun m => hn (List.mem_cons_of_mem _ m)
        rw [hout n h2]
        simp [clearLinks, h1]

/-- One `process` call on a correctly linked chain in which the callback of
`e` throws and every controller queued before `e` has an effect-free
callback: the error propagates out of `process`, exactly the controllers up
to and including `e` are visited in order, and the live list stays empty —
the un-visited snapshotted controllers are not reachable from `head` and not
re-queued. -/
theorem processQ_err {E : Type} {cb : Nat → CbAct} (emit : Nat → E)
    {s : QState} {l1 l2 : List Nat} {e : Nat} (h : RepQ s (l1 ++ e :: l2))
    (nd : (l1 ++ e :: l2).Nodup) (hcb : ∀ n ∈ l1, cb n = CbAct.pure)
    (hth : cb e = CbAct.throwE) {rf wf : Nat} (hrf : 1 ≤ rf)
    (hwf : (l1 ++ e :: l2).length ≤ wf) (tr : List E) :
    ∃ s1, processQ cb emit rf wf s tr =
        some (Except.error QErr.thrown, s1, tr ++ (l1 ++ [e]).map emit) ∧
      s1.head = none ∧ s1.tail = none := by
  obtain ⟨hh, ht, hl⟩ := h
  rcases rf with _ | rf
  · exact absurd hrf (by simp)
  rcases hcs : l1 ++ e :: l2 with _ | ⟨a, t⟩
  · exact absurd hcs (by simp)
  rw [hcs] at hh ht hl nd hwf
  have hch : NextChain (QState.link { head := none, tail := none, link := s.link }) (a :: t) :=
    @repQ_chain s (a :: t) ⟨hh, ht, hl⟩ nd
  obtain ⟨s1, hw, hh1, ht1, _, _⟩ :=
    walk_err cb emit hth l1 l2 a t { head := none, tail := none, link := s.link } tr wf
      hcs.symm hch nd hcb (by simp only [List.length_cons] at hwf; omega)
  refine ⟨s1, ?_, by rw [hh1], by rw [ht1]⟩
  simp only [processQ, hh, List.head?_cons]
  rw [hw]

theorem walk_trace_shape {E : Type} {cb : Nat → CbAct} {emit : Nat → E} :
    ∀ {fuel a : Nat} {s : QState} {tr : List E} {r},
      walk cb emit fuel a s tr = some r → ∃ l : List Nat, r.2.2 = tr ++ l.map emit := by
  intro fuel
  induction fuel with
  | zero => intro a s tr r h; exact absurd h (by simp [walk])
  | succ fuel ih =>
    intro a s tr r h
    simp only [walk] at h
    split at h
    · exact ⟨[a], by rw [← Option.some.inj h]; simp⟩
    · split at h
      · exact ⟨[a], by rw [← Option.some.inj h]; simp⟩
      · obtain ⟨l, hl⟩ := ih h
        exact ⟨a :: l, by rw [hl]; simp⟩

theorem processQ_trace_shape {E : Type} {cb : Nat → CbAct} {emit : Nat → E} :
    ∀ {rf wf : Nat} {s : QState} {tr : List E} {r},
      processQ cb emit rf wf s tr = some r → ∃ l : List Nat, r.2.2 = tr ++ l.map emit := by
  intro rf
  induction rf with
  | zero => intro wf s tr r h; exact absurd h (by simp [processQ])
  | succ rf ih =>
    intro wf s tr r h
    simp only [processQ] at h
    split at h
    · exact ⟨[], by rw [← Option.some.inj h]; simp⟩
    · split at h
      · exact absurd h (by simp)
      · rename_i heq
        obtain ⟨l1, hl1⟩ := walk_trace_shape heq
        exact ⟨l1, by rw [← Option.some.inj h]; exact hl1⟩
      · rename_i heq
        obtain ⟨l1, hl1⟩ := walk_trace_shape heq
        obtain ⟨l2, hl2⟩ := ih h
        refine ⟨l1 ++ l2, ?_⟩
        rw [hl2]
        simp only [List.map_append, ← List.append_assoc]
        rw [← hl1]

theorem processQ_ok_head {E : Type} {cb : Nat → CbAct} {emit : Nat → E} :
    ∀ {rf wf : Nat} {s : QState} {tr : List E} {u s1 tr1},
      processQ cb emit rf wf s tr = some (Except.ok u, s1, tr1) → s1.head = none := by
  intro rf
  induction rf with
  | zero => intro wf s tr u s1 tr1 h; exact absurd h (by simp [processQ])
  | succ rf ih =>
    intro wf s tr u s1 tr1 h
    simp only [processQ] at h
    split at h
    · rename_i hh
      obtain ⟨h1, h2, h3⟩ : (Except.ok () : Except QErr Unit) = Except.ok u ∧ s = s1 ∧ tr = tr1 := by
        simpa [Prod.ext_iff] using Option.some.inj h
      rw [← h2]
      exact hh
    · split at h
      · exact absurd h (by simp)
      · exact absurd (Option.some.inj h) (by simp)
      · exact ih h

theorem getLast?_append_cons :
    ∀ (l1 : List Nat) (b : Nat) (l2 : List Nat),
      (l1 ++ b :: l2).getLast? = (b :: l2).getLast?
  | [], _, _ => rfl
  | a :: l1t, b, l2 => by
    have ih := getLast?_append_cons l1t b l2
    cases hb : l1t ++ b :: l2 with
    | nil => simp at hb
    | cons x t =>
      rw [List.cons_append, hb, List.getLast?_cons_cons, ← hb, ih]

theorem nextOf_getLast {l : List Nat} (nd : l.Nodup) (h : l ≠ []) :
    nextOf l (l.getLast h) = none := by
  have hmem := List.getLast_mem h
  have hx := nextOf_append_mem ([] : List Nat) nd hmem
  rw [List.append_nil] at hx
  rw [hx, if_pos (List.getLast?_eq_getLast _ h).symm]
  rfl

/-- `process` on a queue whose `head` is `undefined` returns immediately
without touching anything. -/
theorem processQ_nil {E : Type} {cb : Nat → CbAct} {emit : Nat → E} {s : QState}
    (hh : s.head = none) {rf wf : Nat} (hrf : 1 ≤ rf) (tr : List E) :
    processQ cb emit rf wf s tr = some (Except.ok (), s, tr) := by
  rcases rf with _ | rf
  · exact absurd hrf (by simp)
  simp only [processQ, hh]

/-- `add` on a corrupted queue whose `head` is defined while `tail` is
`undefined`: `this.tail!.nextBound = controller` raises a TypeError. -/
theorem add_crash {s : QState} {x : Nat} (hh : s.head = some x) (ht : s.tail = none)
    (c : Nat) : add s c = Except.error QErr.crash := by
  simp only [add, hh, ht]

/-- Full characterisation of `remove` on a correctly linked chain
`l1 ++ b :: l2`.  Because the source clears the removed controller's link
fields before the endpoint checks read them, removing the head makes `head`
`undefined` (even when the list stays nonempty) and removing the tail makes
`tail` `undefined`; the interior stitching itself is correct, so the `next`
chain that `process` would walk from the remaining head is `l1 ++ l2`. -/
theorem remove_spec {s : QState} {l1 l2 : List Nat} {b : Nat}
    (h : RepQ s (l1 ++ b :: l2)) (nd : (l1 ++ b :: l2).Nodup) :
    (remove s b).head = (if l1 = [] then none else l1.head?) ∧
    (remove s b).tail = (if l2 = [] then none else l2.getLast?) ∧
    NextChain (remove s b).link (l1 ++ l2) := by
  obtain ⟨hh, ht, hl⟩ := h
  have nd1 : l1.Nodup := List.Nodup.of_append_left nd
  have nd2' : (b :: l2).Nodup := List.Nodup.of_append_right nd
  have hbl2 : b ∉ l2 := (List.nodup_cons.mp nd2').1
  have nd2 : l2.Nodup := (List.nodup_cons.mp nd2').2
  have disj : List.Disjoint l1 (b :: l2) := List.disjoint_of_nodup_append nd
  have hbl1 : b ∉ l1 := fun hm => disj hm (List.mem_cons_self _ _)
  have disj12 : List.Disjoint l1 l2 := by
    intro n h1 h2
    exact disj h1 (List.mem_cons_of_mem _ h2)
  have hbprev : (s.link b).prev = l1.getLast? := by
    rw [hl b]; exact prevOf_boundary l2 hbl2
  have hbnext : (s.link b).next = l2.head? := by
    rw [hl b]
    show nextOf (l1 ++ b :: l2) b = l2.head?
    rw [nextOf_append_right _ hbl1, nextOf_cons_self]
  have htail : s.tail = (b :: l2).getLast? := by rw [ht, getLast?_append_cons]
  cases l1 with
  | nil =>
    have hhb : s.head = some b := hh
    have hbprevn : (s.link b).prev = none := by rw [hbprev]; rfl
    cases l2 with
    | nil =>
      have htailb : s.tail = some b := htail
      have hbnextn : (s.link b).next = none := by rw [hbnext]; rfl
      refine ⟨?_, ?_, trivial⟩
      · simp [remove, hbprevn, hbnextn, clearLinks, hhb]
      · simp [remove, hbprevn, hbnextn, clearLinks, htailb]
    | cons c2 l2t =>
      have hbnextc : (s.link b).next = some c2 := hbnext
      have hc2b : c2 ≠ b := fun e => hbl2 (e ▸ List.mem_cons_self _ _)
      have hglne : (c2 :: l2t).getLast? ≠ some b := by
        rw [List.getLast?_eq_getLast _ (by simp)]
        intro hEq
        exact hbl2 (by rw [← Option.some.inj hEq]; exact List.getLast_mem _)
      have htailc : s.tail = (c2 :: l2t).getLast? := by
        rw [htail, List.getLast?_cons_cons]
      refine ⟨?_, ?_, ?_⟩
      · simp [remove, hbprevn, hbnextc, setPrevF, clearLinks, hhb, htailc, hglne]
      · simp [remove, hbprevn, hbnextc, setPrevF, clearLinks, htailc, hglne]
      · show NextChain (remove s b).link ([] ++ c2 :: l2t)
        rw [List.nil_append]
        refine chain_of_next nd2 fun n hn => ?_
        have hnb : n ≠ b := fun e => hbl2 (e ▸ hn)
        have e1 : ((remove s b).link n).next = (s.link n).next := by
          by_cases hc : n = c2 <;>
            simp [remove, hbprevn, hbnextc, clearLinks, setPrevF, hnb, hc, hc2b]
        rw [e1, hl n]
        show nextOf ([] ++ b :: c2 :: l2t) n = nextOf (c2 :: l2t) n
        rw [List.nil_append]
        simp [nextOf, hnb]
  | cons a1 l1t =>
    have hha : s.head = some a1 := hh
    have hl1ne : (a1 :: l1t) ≠ [] := by simp
    set p := (a1 :: l1t).getLast hl1ne with hpdef
    have hpl : (a1 :: l1t).getLast? = some p := List.getLast?_eq_getLast _ hl1ne
    have hpmem : p ∈ a1 :: l1t := List.getLast_mem hl1ne
    have hbp : b ≠ p := fun e => hbl1 (e ▸ hpmem)
    have hbprevp : (s.link b).prev = some p := by rw [hbprev, hpl]
    have hab : a1 ≠ b := fun e => hbl1 (e ▸ List.mem_cons_self _ _)
    have hheadne : s.head ≠ some b := by
      rw [hha]
      exact fun hEq => hab (Option.some.inj hEq)
    have hpb : p ≠ b := Ne.symm hbp
    cases l2 with
    | nil =>
      have htailb : s.tail = some b := htail
      have hbnextn : (s.link b).next = none := by rw [hbnext]; rfl
      refine ⟨?_, ?_, ?_⟩
      · simp [remove, hbprevp, hbnextn, setNextF, clearLinks, hha, hheadne, hbp, hab]
      · simp [remove, hbprevp, hbnextn, setNextF, clearLinks, htailb, hbp, hab]
      · show NextChain (remove s b).link ((a1 :: l1t) ++ [])
        rw [List.append_nil]
        refine chain_of_next nd1 fun n hn => ?_
        have hnb : n ≠ b := fun e => hbl1 (e ▸ hn)
        by_cases hnp : n = p
        · have e1 : ((remove s b).link n).next = none := by
            simp [remove, hbprevp, hbnextn, setNextF, clearLinks, hbp, hpb, hnb, hnp]
          rw [e1, hnp, hpdef, nextOf_getLast nd1 hl1ne]
        · have e1 : ((remove s b).link n).next = (s.link n).next := by
            simp [remove, hbprevp, hbnextn, setNextF, clearLinks, hbp, hnb, hnp]
          rw [e1, hl n]
          show nextOf ((a1 :: l1t) ++ b :: []) n = nextOf (a1 :: l1t) n
          rw [nextOf_append_mem _ nd1 hn, if_neg]
          rw [hpl]
          exact fun e => hnp (Option.some.inj e)
    | cons c2 l2t =>
      have hbnextc : (s.link b).next = some c2 := hbnext
      have hc2mem : c2 ∈ c2 :: l2t := List.mem_cons_self _ _
      have hc2l1 : c2 ∉ a1 :: l1t := fun hm => disj12 hm hc2mem
      have hpc2 : p ≠ c2 := fun e => hc2l1 (e ▸ hpmem)
      have hbc2 : b ≠ c2 := fun e => hbl2 (e ▸ hc2mem)
      have htailc : s.tail = (c2 :: l2t).getLast? := by
        rw [htail, List.getLast?_cons_cons]
      have hglne : (c2 :: l2t).getLast? ≠ some b := by
        rw [List.getLast?_eq_getLast _ (by simp)]
        intro hEq
        exact hbl2 (by rw [← Option.some.inj hEq]; exact List.getLast_mem _)
      have hc2b : c2 ≠ b := Ne.symm hbc2
      have hc2p : c2 ≠ p := Ne.symm hpc2
      refine ⟨?_, ?_, ?_⟩
      · simp [remove, hbprevp, hbnextc, setNextF, setPrevF, clearLinks, hha, hheadne, hbp, hab,
          hbc2, hc2b, hc2p]
      · simp [remove, hbprevp, hbnextc, setNextF, setPrevF, clearLinks, htailc, hglne, hbp,
          hab, hbc2, hc2b, hc2p]
      · refine chain_of_next (List.Nodup.append nd1 nd2 disj12) fun n hn => ?_
        have hnb : n ≠ b := fun e => (by
          rcases List.mem_append.mp hn with h1 | h2
          · exact hbl1 (e ▸ h1)
          · exact hbl2 (e ▸ h2))
        rcases List.mem_append.mp hn with h1 | h2
        · by_cases hnp : n = p
          · have e1 : ((remove s b).link n).next = some c2 := by
              simp [remove, hbprevp, hbnextc, setNextF, setPrevF, clearLinks, hbp, hpb, hpc2,
                hc2p, hc2b, hnb, hnp]
            rw [e1, nextOf_append_mem _ nd1 h1, if_pos (by rw [hnp, hpl])]
            rfl
          · have hnc2 : n ≠ c2 := fun e => hc2l1 (e ▸ h1)
            have e1 : ((remove s b).link n).next = (s.link n).next := by
              simp [remove, hbprevp, hbnextc, setNextF, setPrevF, clearLinks, hbp, hc2b, hnb,
                hnp, hnc2]
            rw [e1, hl n]
            show nextOf ((a1 :: l1t) ++ b :: c2 :: l2t) n = nextOf ((a1 :: l1t) ++ c2 :: l2t) n
            have hcond : ¬ some n = (a1 :: l1t).getLast? := by
              rw [hpl]
              exact fun e => hnp (Option.some.inj e)
            rw [nextOf_append_mem _ nd1 h1, nextOf_append_mem _ nd1 h1, if_neg hcond,
              if_neg hcond]
        · have hnl1 : n ∉ a1 :: l1t := fun hm => disj12 hm h2
          have hnp : n ≠ p := fun e => hnl1 (e ▸ hpmem)
          have e1 : ((remove s b).link n).next = (s.link n).next := by
            by_cases hnc2 : n = c2 <;>
              simp [remove, hbprevp, hbnextc, setNextF, setPrevF, clearLinks, hbp, hc2b,
                hc2p, hnb, hnp, hnc2]
          rw [e1, hl n]
          show nextOf ((a1 :: l1t) ++ b :: c2 :: l2t) n = nextOf ((a1 :: l1t) ++ c2 :: l2t) n
          rw [nextOf_append_right _ hnl1, nextOf_append_right _ hnl1]
          simp [nextOf, hnb]

/-! ### Concrete fixtures for witnesses and counterexamples -/

/-- The queue state reached by a single `add x` on a fresh queue. -/
def qOne (x : Nat) : QState :=
  { head := some x, tail := some x, link := fun _ => { prev := none, next := none } }

/-- A concretely linked chain holding `cs`: the canonical state satisfying
`RepQ · cs`, used to instantiate theorems at concrete inputs. -/
def qChain (cs : List Nat) : QState :=
  { head := cs.head?, tail := cs.getLast?,
    link := fun n => { prev := prevOf cs n, next := nextOf cs n } }

theorem qChain_repQ (cs : List Nat) : RepQ (qChain cs) cs :=
  ⟨rfl, rfl, fun _ => rfl⟩

/-! ### The claims -/

/-- C2: the spec says the invariant (`head` undefined iff the list is empty
iff `tail` undefined) is preserved by every operation, and that `remove` of
an endpoint updates `head`/`tail` to still delimit the remaining non-empty
list.  The code violates this: after `add 1; add 2`, `remove 2` reads the
removed controller's `prevBound` AFTER clearing it, leaving
`tail === undefined` while `head` is still controller 1 — the remaining
one-element list is no longer delimited. -/
theorem c2_remove_endpoint_bug :
    ∃ s, addList initQ [1, 2] = Except.ok s ∧
      s.head = some 1 ∧ s.tail = some 2 ∧
      (remove s 2).head = some 1 ∧ (remove s 2).tail = none := by
  refine ⟨_, rfl, ?_, ?_, ?_, ?_⟩ <;> rfl

/-- C3: on a queue of at least two linked controllers, `remove` of the tail
leaves `tail === undefined` with `head` still defined, so a subsequent `add`
takes the non-empty branch and crashes on the non-null-asserted `tail`;
symmetrically `remove` of the head leaves `head === undefined` with `tail`
still defined, so a subsequent `process` invokes no callback at all. -/
theorem c3_endpoint_corruption {s : QState} {cs : List Nat} (h : RepQ s cs)
    (nd : cs.Nodup) :
    (∀ l1 b, cs = l1 ++ [b] → l1 ≠ [] →
      (remove s b).tail = none ∧ (remove s b).head = l1.head? ∧
      (remove s b).head ≠ none ∧
      ∀ c, add (remove s b) c = Except.error QErr.crash) ∧
    (∀ b l2, cs = b :: l2 → l2 ≠ [] →
      (remove s b).head = none ∧ (remove s b).tail = l2.getLast? ∧
      (remove s b).tail ≠ none ∧
      ∀ (cb : Nat → CbAct) (rf wf : Nat) (tr : List Nat), 1 ≤ rf →
        processQ cb (fun n => n) rf wf (remove s b) tr =
          some (Except.ok (), remove s b, tr)) := by
  constructor
  · rintro l1 b rfl hl1
    obtain ⟨hhead, htail, _⟩ := remove_spec h nd
    rw [if_neg hl1] at hhead
    rw [if_pos rfl] at htail
    cases l1 with
    | nil => exact absurd rfl hl1
    | cons a1 l1t =>
      refine ⟨htail, hhead, ?_, fun c => @add_crash _ a1 (by rw [hhead]; rfl) htail c⟩
      rw [hhead]
      simp
  · rintro b l2 rfl hl2
    obtain ⟨hhead, htail, _⟩ := @remove_spec s [] l2 b h nd
    rw [if_pos rfl] at hhead
    rw [if_neg hl2] at htail
    refine ⟨hhead, htail, ?_, fun cb rf wf tr hrf => processQ_nil hhead hrf tr⟩
    rw [htail, List.getLast?_eq_getLast _ hl2]
    simp

/-- C3 witness: both corruption scenarios on the concrete two-element chain
`[1, 2]`. -/
theorem c3_witness :
    (remove (qChain [1, 2]) 2).tail = none ∧
    add (remove (qChain [1, 2]) 2) 3 = Except.error QErr.crash ∧
    (remove (qChain [1, 2]) 1).head = none ∧
    processQ cbPure (fun n => n) 2 2 (remove (qChain [1, 2]) 1) [] =
      some (Except.ok (), remove (qChain [1, 2]) 1, []) := by
  have h := c3_endpoint_corruption (qChain_repQ [1, 2]) (by decide)
  have h1 := h.1 [1] 2 rfl (by decide)
  have h2 := h.2 1 [2] rfl (by decide)
  exact ⟨h1.1, h1.2.2.2 3, h2.1, h2.2.2.2 cbPure 2 2 [] (by decide)⟩

/-- C6: for every `Nodup` sequence of `add` calls with no intervening
`process`, no `remove`, and callbacks that do not re-enter the queue, one
`process` invokes each added controller's callback exactly once in append
order (the trace is exactly the appended sequence) and leaves the queue empty
with every processed controller's link fields cleared to `undefined`. -/
theorem c6_fifo_drain (cs : List Nat) (nd : cs.Nodup) {cb : Nat → CbAct}
    (hcb : ∀ n ∈ cs, cb n = CbAct.pure) {rf wf : Nat} (hrf : 2 ≤ rf)
    (hwf : cs.length ≤ wf) :
    ∃ s, addList initQ cs = Except.ok s ∧
      ∃ s1, processQ cb (fun n => n) rf wf s [] = some (Except.ok (), s1, cs) ∧
        s1.head = none ∧ s1.tail = none ∧
        ∀ n, s1.link n = { prev := none, next := none } := by
  obtain ⟨s, hadd, hrep⟩ := addList_repQ nd
  obtain ⟨s1, hproc, hrep1⟩ := processQ_pure (fun n => n) hrep nd hcb hrf hwf []
  refine ⟨s, hadd, s1, ?_, hrep1.1, hrep1.2.1, fun n => hrep1.2.2 n⟩
  rw [hproc]
  simp

/-- C6 witness: adding 1, 2, 3 and processing fires the callbacks for 1, 2, 3
in that order and empties the queue. -/
theorem c6_witness :
    ([1, 2, 3] : List Nat).Nodup ∧
    (∃ s, addList initQ [1, 2, 3] = Except.ok s ∧
      ∃ s1, processQ cbPure (fun n => n) 2 3 s [] = some (Except.ok (), s1, [1, 2, 3]) ∧
        s1.head = none ∧ s1.tail = none ∧
        ∀ n, s1.link n = { prev := none, next := none }) :=
  ⟨by decide, c6_fifo_drain [1, 2, 3] (by decide) (fun n _ => rfl) (by decide) (by decide)⟩

/-- C7: `BatchQueue.process` ORs the from-batch marker into the flags passed
to every `flushBatch` callback and drains in rounds until the live sequence
is empty: an item `y` enqueued inside `x`'s `flushBatch` is flushed in a
further round of the same `process` invocation, after `x`, and `process`
returns with the live sequence empty. -/
theorem c7_batch_rounds (x y f m : Nat) (d : Int) (hxy : x ≠ y) :
    bProcess (cbOne x [y]) m f 3 { queue := [x], depth := d } [] =
      some (Except.ok (), { queue := [], depth := d }, [(x, f ||| m), (y, f ||| m)]) := by
  have hyx : y ≠ x := Ne.symm hxy
  simp [bProcess, bLoop, bRound, bRunCb, cbOne, hyx]

/-- C7 witness. -/
theorem c7_witness :
    (1 : Nat) ≠ 2 ∧
    bProcess (cbOne 1 [2]) 4 1 3 { queue := [1], depth := 0 } [] =
      some (Except.ok (), { queue := [], depth := 0 }, [(1, 5), (2, 5)]) :=
  ⟨by decide, c7_batch_rounds 1 2 1 4 0 (by decide)⟩

/-- C1 counterexample: the claim says an item added to the same queue during
`process` is never visited by that same `process` call.  On the code, with
controller 1 queued and controller 1's callback adding controller 2, one
single `process` call invokes both callbacks: the outer
`while (this.head !== void 0)` loop of `process` re-checks the live head
after the snapshot walk and drains the reentrant addition in a second round
of the same invocation. -/
theorem c1_counterexample :
    addList initQ [1] = Except.ok (qOne 1) ∧
    (processQ (cbOne 1 [2]) (fun n => n) 3 2 (qOne 1) []).map
        (fun r => (r.2.2, r.2.1.head, r.2.1.tail)) =
      some ([1, 2], none, none) := by
  exact ⟨rfl, rfl⟩

/-- C1 amended: an item added to the same queue from within a callback is not
visited by the in-progress snapshot walk, but it does not wait for the next
`begin`/`end` cycle: the reentrant addition lands on the live list and the
same `process` invocation drains it in a further round of its outer `while`
loop, returning only when the live list is empty. -/
theorem c1_amended (x y : Nat) (hxy : x ≠ y) :
    ∃ s, add initQ x = Except.ok s ∧
      (processQ (cbOne x [y]) (fun n => n) 3 2 s []).map
          (fun r => (r.1, r.2.2, r.2.1.head, r.2.1.tail)) =
        some (Except.ok (), [x, y], none, none) := by
  have hyx : y ≠ x := Ne.symm hxy
  refine ⟨qOne x, rfl, ?_⟩
  simp [processQ, walk, runCb, cbOne, addList, add, qOne, clearLinks, hxy, hyx]

/-- C1 amended witness. -/
theorem c1_amended_witness :
    (1 : Nat) ≠ 2 ∧
    (∃ s, add initQ 1 = Except.ok s ∧
      (processQ (cbOne 1 [2]) (fun n => n) 3 2 s []).map
          (fun r => (r.1, r.2.2, r.2.1.head, r.2.1.tail)) =
        some (Except.ok (), [1, 2], none, none)) :=
  ⟨by decide, c1_amended 1 2 (by decide)⟩

/-- C4 counterexample: the claim says `inline` guarantees the matching `end`
(hence the depth decrement) on every exit path, including when the
caller-supplied `fn` raises.  The code has no try/finally: starting at depth
0, `inline` with a throwing `fn` propagates the error with `depth` left at 1
— the decrement never happened, and no drain was triggered. -/
theorem c4_counterexample :
    (inlineQ cbPure 2 2 (fun a => Except.error (QErr.thrown, a))
        { q := initQ, depth := 0 }).map (fun r => (r.2.1.depth, r.2.2)) =
      some ((1 : Int), ([] : List Nat)) ∧ (1 : Int) ≠ 0 :=
  ⟨rfl, by decide⟩

/-- C4 amended: `inline(fn, flags)` is literally `begin(); fn(); end(flags)`
with no exception protection.  When `fn` returns normally, the sequence is
the begin/end-wrapped call: from depth 0 the `end` reaches 0 and performs the
full drain, leaving depth 0.  When `fn` raises, the error propagates to the
caller before `end` runs: no drain occurs, nothing is traced, and `depth`
stays incremented at 1.  `BatchQueue.inline` behaves identically. -/
theorem c4_amended {s : QState} {cs : List Nat} (h : RepQ s cs) (nd : cs.Nodup)
    {cb : Nat → CbAct} (hcb : ∀ n ∈ cs, cb n = CbAct.pure) {rf wf : Nat}
    (hrf : 2 ≤ rf) (hwf : cs.length ≤ wf) :
    (∃ s1, inlineQ cb rf wf Except.ok { q := s, depth := 0 } =
        some (Except.ok (), { q := s1, depth := 0 }, cs) ∧ RepQ s1 []) ∧
    (inlineQ cb rf wf (fun a => Except.error (QErr.thrown, a)) { q := s, depth := 0 } =
      some (Except.error QErr.thrown, { q := s, depth := 1 }, [])) ∧
    (∀ (q : List Nat) (cbb : Nat → CbAct) (m f : Nat) (rfb : Nat),
      bInlineQ cbb m f rfb (fun b => Except.error (QErr.thrown, b))
          { queue := q, depth := 0 } =
        some (Except.error QErr.thrown, { queue := q, depth := 1 }, [])) := by
  refine ⟨?_, rfl, fun q cbb m f rfb => rfl⟩
  obtain ⟨s1, hproc, hrep1⟩ := processQ_pure (fun n => n) h nd hcb hrf hwf []
  refine ⟨s1, ?_, hrep1⟩
  show endQ cb rf wf { q := s, depth := (0 : Int) + 1 } = _
  simp only [endQ]
  norm_num
  rw [hproc]
  simp

/-- C4 witness. -/
theorem c4_witness :
    ([1, 2] : List Nat).Nodup ∧
    ((∃ s1, inlineQ cbPure 2 2 Except.ok { q := qChain [1, 2], depth := 0 } =
        some (Except.ok (), { q := s1, depth := 0 }, [1, 2]) ∧ RepQ s1 []) ∧
    (inlineQ cbPure 2 2 (fun a => Except.error (QErr.thrown, a))
        { q := qChain [1, 2], depth := 0 } =
      some (Except.error QErr.thrown, { q := qChain [1, 2], depth := 1 }, [])) ∧
    (∀ (q : List Nat) (cbb : Nat → CbAct) (m f : Nat) (rfb : Nat),
      bInlineQ cbb m f rfb (fun b => Except.error (QErr.thrown, b))
          { queue := q, depth := 0 } =
        some (Except.error QErr.thrown, { queue := q, depth := 1 }, []))) :=
  ⟨by decide,
    c4_amended (qChain_repQ [1, 2]) (by decide) (fun n _ => rfl) (by decide) (by decide)⟩

/-- C9: `begin` increments `depth` and touches nothing else; `end` decrements
`depth` and triggers `process` exactly when the decrement reaches 0 (an `end`
from any other depth performs no drain); in a nested
`begin; begin; end; end` from depth 0 the inner `end` drains nothing and the
outer `end` performs the single full flush. -/
theorem c9_depth_coalescing :
    (∀ a : AutoQ, beginQ a = { q := a.q, depth := a.depth + 1 }) ∧
    (∀ (cb : Nat → CbAct) (rf wf : Nat) (a : AutoQ), a.depth ≠ 1 →
      endQ cb rf wf a = some (Except.ok (), { q := a.q, depth := a.depth - 1 }, [])) ∧
    (∀ (s : QState) (cs : List Nat) (cb : Nat → CbAct) (rf wf : Nat),
      RepQ s cs → cs.Nodup → (∀ n ∈ cs, cb n = CbAct.pure) → 2 ≤ rf →
      cs.length ≤ wf →
      endQ cb rf wf (beginQ (beginQ { q := s, depth := 0 })) =
        some (Except.ok (), { q := s, depth := 1 }, []) ∧
      ∃ s1, endQ cb rf wf { q := s, depth := 1 } =
          some (Except.ok (), { q := s1, depth := 0 }, cs) ∧ RepQ s1 []) := by
  refine ⟨fun a => rfl, ?_, ?_⟩
  · intro cb rf wf a hd
    have hne : ¬(a.depth - 1 = 0) := by omega
    simp [endQ, hne]
  · intro s cs cb rf wf h nd hcb hrf hwf
    constructor
    · show endQ cb rf wf { q := s, depth := (0 : Int) + 1 + 1 } = _
      have hne : ¬((0 : Int) + 1 + 1 - 1 = 0) := by omega
      simp [endQ, hne]
    · obtain ⟨s1, hproc, hrep1⟩ := processQ_pure (fun n => n) h nd hcb hrf hwf []
      refine ⟨s1, ?_, hrep1⟩
      simp only [endQ]
      norm_num
      rw [hproc]
      simp

/-- C9 witness. -/
theorem c9_witness :
    beginQ { q := initQ, depth := 0 } = { q := initQ, depth := 1 } ∧
    endQ cbPure 2 2 { q := initQ, depth := 5 } =
      some (Except.ok (), { q := initQ, depth := 4 }, []) ∧
    endQ cbPure 2 3 (beginQ (beginQ { q := qChain [1, 2, 3], depth := 0 })) =
      some (Except.ok (), { q := qChain [1, 2, 3], depth := 1 }, []) ∧
    (∃ s1, endQ cbPure 2 3 { q := qChain [1, 2, 3], depth := 1 } =
        some (Except.ok (), { q := s1, depth := 0 }, [1, 2, 3]) ∧ RepQ s1 []) := by
  have h := c9_depth_coalescing
  have h3 := h.2.2 (qChain [1, 2, 3]) [1, 2, 3] cbPure 2 3 (qChain_repQ [1, 2, 3])
    (by decide) (fun n _ => rfl) (by decide) (by decide)
  exact ⟨h.1 _, h.2.1 cbPure 2 2 _ (by decide), h3.1, h3.2⟩

/-- `process` on a queue whose `head` points at a correctly `next`-linked
chain (the `tail`/`prev` fields are irrelevant to the walk) with effect-free
callbacks: the chain is drained in order. -/
theorem processQ_chain_pure {E : Type} {cb : Nat → CbAct} (emit : Nat → E)
    {s : QState} {a : Nat} {t : List Nat} (hh : s.head = some a)
    (hch : NextChain s.link (a :: t)) (nd : (a :: t).Nodup)
    (hcb : ∀ n ∈ a :: t, cb n = CbAct.pure) {rf wf : Nat} (hrf : 2 ≤ rf)
    (hwf : (a :: t).length ≤ wf) (tr : List E) :
    ∃ s1, processQ cb emit rf wf s tr =
        some (Except.ok (), s1, tr ++ (a :: t).map emit) ∧ s1.head = none := by
  rcases rf with _ | rf
  · exact absurd hrf (by simp)
  have hrf1 : 1 ≤ rf := by omega
  have hch0 : NextChain (QState.link { head := none, tail := none, link := s.link }) (a :: t) :=
    hch
  obtain ⟨s1, hw, hh1, _, _, _⟩ :=
    walk_pure cb emit t a { head := none, tail := none, link := s.link } tr wf hch0 nd hcb
      (by simp only [List.length_cons] at hwf; omega)
  refine ⟨s1, ?_, by rw [hh1]⟩
  simp only [processQ, hh]
  rw [hw]
  rcases rf with _ | rf'
  · exact absurd hrf1 (by simp)
  have hh1n : s1.head = none := by rw [hh1]
  simp only [processQ, hh1n]

/-- C10: `remove` before `process` never lets the removed controller's
callback fire: on the chain `l1 ++ b :: l2`, after `remove b` a single
`process` traces exactly `l1 ++ l2` when `b` was not the head (in particular
A, C in order for the scenario A, B, C with B removed), and traces nothing at
all when `b` was the head (the corrupted `head === undefined` makes `process`
a no-op) — in every case the removed `b` is never invoked. -/
theorem c10_remove_not_invoked {l1 l2 : List Nat} {b : Nat}
    (nd : (l1 ++ b :: l2).Nodup) {cb : Nat → CbAct}
    (hcb : ∀ n ∈ l1 ++ l2, cb n = CbAct.pure) {rf wf : Nat} (hrf : 2 ≤ rf)
    (hwf : (l1 ++ l2).length ≤ wf) :
    ∃ s, addList initQ (l1 ++ b :: l2) = Except.ok s ∧
      ∃ s1 tr, processQ cb (fun n => n) rf wf (remove s b) [] =
          some (Except.ok (), s1, tr) ∧
        tr = (if l1 = [] then [] else l1 ++ l2) ∧ b ∉ tr := by
  obtain ⟨s, hadd, hrep⟩ := addList_repQ nd
  obtain ⟨hhead, _, hch⟩ := remove_spec hrep nd
  have hbl : b ∉ l1 ++ l2 := by
    intro hm
    have nd2' : (b :: l2).Nodup := List.Nodup.of_append_right nd
    have disj : List.Disjoint l1 (b :: l2) := List.disjoint_of_nodup_append nd
    rcases List.mem_append.mp hm with h1 | h2
    · exact disj h1 (List.mem_cons_self _ _)
    · exact (List.nodup_cons.mp nd2').1 h2
  cases l1 with
  | nil =>
    rw [if_pos rfl] at hhead
    refine ⟨s, hadd, remove s b, [], processQ_nil hhead (by omega) [], by simp, by simp⟩
  | cons a1 l1t =>
    rw [if_neg (by simp)] at hhead
    have nd12 : ((a1 :: l1t) ++ l2).Nodup := by
      have nd1 : (a1 :: l1t).Nodup := List.Nodup.of_append_left nd
      have nd2' : (b :: l2).Nodup := List.Nodup.of_append_right nd
      have disj : List.Disjoint (a1 :: l1t) (b :: l2) := List.disjoint_of_nodup_append nd
      refine List.Nodup.append nd1 (List.nodup_cons.mp nd2').2 ?_
      intro n h1 h2
      exact disj h1 (List.mem_cons_of_mem _ h2)
    obtain ⟨s1, hproc, _⟩ :=
      processQ_chain_pure (fun n => n) (by rw [hhead]; rfl) hch nd12 hcb hrf hwf []
    refine ⟨s, hadd, s1, (a1 :: l1t) ++ l2, ?_, by rw [if_neg (by simp)], hbl⟩
    rw [hproc]
    simp
  
/-- C10 witness: the A, B, C scenario — remove 2 after adding 1, 2, 3;
`process` invokes only 1 and 3, in that order. -/
theorem c10_witness :
    ([1] ++ 2 :: [3] : List Nat).Nodup ∧
    (∃ s, addList initQ ([1] ++ 2 :: [3]) = Except.ok s ∧
      ∃ s1 tr, processQ cbPure (fun n => n) 2 2 (remove s 2) [] =
          some (Except.ok (), s1, tr) ∧
        tr = (if ([1] : List Nat) = [] then [] else [1] ++ [3]) ∧ 2 ∉ tr) :=
  ⟨by decide,
    c10_remove_not_invoked (by decide) (fun n _ => rfl) (by decide) (by decide)⟩

theorem chainedEnd_order {em ep : Nat → Ev} (hdisj : ∀ m n, em m ≠ ep n)
    {cbM cbP : Nat → CbAct} {rf wf : Nat} {p : ChainedQ} (hd : p.depth = 1)
    {res} (hres : chainedEnd em ep cbM cbP rf wf p = some res) :
    (∃ lm la : List Nat, res.2.2 = lm.map em ++ la.map ep) ∧
    ((∃ n, ep n ∈ res.2.2) → res.2.1.renderQ.head = none) ∧
    (res.1 = Except.ok () → res.2.1.renderQ.head = none) := by
  have hd0 : p.depth - 1 = 0 := by omega
  rw [chainedEnd, if_pos hd0] at hres
  split at hres
  · exact absurd hres (by simp)
  · rename_i e m1 tr heq
    obtain ⟨lm, hlm⟩ := processQ_trace_shape heq
    simp only [List.nil_append] at hlm
    refine ⟨⟨lm, [], ?_⟩, ?_, ?_⟩
    · rw [← Option.some.inj hres]
      simpa using hlm
    · rw [← Option.some.inj hres]
      rintro ⟨n, hn⟩
      simp only at hn
      rw [hlm] at hn
      obtain ⟨x, _, hx⟩ := List.mem_map.mp hn
      exact absurd hx (hdisj x n)
    · rw [← Option.some.inj hres]
      intro hok
      exact absurd hok (by simp)
  · rename_i u m1 tr heq
    obtain ⟨lm, hlm⟩ := processQ_trace_shape heq
    simp only [List.nil_append] at hlm
    have hm1 : m1.head = none := processQ_ok_head heq
    split at hres
    · exact absurd hres (by simp)
    · rename_i st2 q1 tr2 heq2
      obtain ⟨la, hla⟩ := processQ_trace_shape heq2
      have hla2 : tr2 = tr ++ la.map ep := hla
      refine ⟨⟨lm, la, ?_⟩, fun _ => ?_, fun _ => ?_⟩
      · rw [← Option.some.inj hres]
        simp only
        rw [hla2, hlm]
      · rw [← Option.some.inj hres]
        exact hm1
      · rw [← Option.some.inj hres]
        exact hm1

/-- C5: when the Attach auto-queue's `end` brings `depth` to exactly 0, the
Mount manual queue's full `process` drain happens strictly before any
`afterAttach` callback: in the event trace of `end`, every `mount` event
precedes every `afterAttach` event, an `afterAttach` event can only exist
once the Mount queue has been fully drained (its `head` is `undefined`), and
on normal completion the Mount queue is drained.  The symmetric property
holds for the Detach auto-queue and the Unmount queue. -/
theorem c5_render_before_phase (cbM cbP : Nat → CbAct) (rf wf : Nat)
    (p : ChainedQ) (hd : p.depth = 1) :
    (∀ res, endA cbM cbP rf wf p = some res →
      (∃ lm la : List Nat, res.2.2 = lm.map Ev.mnt ++ la.map Ev.att) ∧
      ((∃ n, Ev.att n ∈ res.2.2) → res.2.1.renderQ.head = none) ∧
      (res.1 = Except.ok () → res.2.1.renderQ.head = none)) ∧
    (∀ res, endD cbM cbP rf wf p = some res →
      (∃ lm la : List Nat, res.2.2 = lm.map Ev.unm ++ la.map Ev.det) ∧
      ((∃ n, Ev.det n ∈ res.2.2) → res.2.1.renderQ.head = none) ∧
      (res.1 = Except.ok () → res.2.1.renderQ.head = none)) :=
  ⟨fun res hres => chainedEnd_order (fun m n => by simp) hd hres,
   fun res hres => chainedEnd_order (fun m n => by simp) hd hres⟩

/-- C5 witness: Mount queue holding controller 1, Attach list holding
controller 2, `end` from depth 1 — the trace is the mount event then the
afterAttach event. -/
theorem c5_witness :
    ((⟨qOne 1, qOne 2, 1⟩ : ChainedQ).depth = 1) ∧
    (∃ lm la : List Nat,
      ((endA cbPure cbPure 2 2 ⟨qOne 1, qOne 2, 1⟩).get (by rfl)).2.2 =
        lm.map Ev.mnt ++ la.map Ev.att) := by
  have h := (c5_render_before_phase cbPure cbPure 2 2 ⟨qOne 1, qOne 2, 1⟩ rfl).1
    ((endA cbPure cbPure 2 2 ⟨qOne 1, qOne 2, 1⟩).get (by rfl))
    (Option.some_get _).symm
  exact ⟨rfl, h.1⟩

theorem bRound_err {e : Nat} {cb : Nat → CbAct} (hth : cb e = CbAct.throwE) (f2 : Nat) :
    ∀ (l1 : List Nat) (l2 : List Nat) (s : BState) (tr : List (Nat × Nat)),
      (∀ n ∈ l1, cb n = CbAct.pure) →
      bRound cb f2 (l1 ++ e :: l2) s tr =
        (Except.error QErr.thrown, s, tr ++ (l1 ++ [e]).map (fun i => (i, f2)))
  | [], l2, s, tr, _ => by
    simp [bRound, bRunCb, hth]
  | a :: l1t, l2, s, tr, hcb => by
    have ih := bRound_err hth f2 l1t l2 s (tr ++ [(a, f2)])
      (fun n hn => hcb n (List.mem_cons_of_mem _ hn))
    simp only [List.cons_append, bRound, bRunCb, hcb a (by simp), List.append_eq]
    rw [ih]
    simp

/-- C8: no queue ever swallows an error.  On a phase queue holding
`l1 ++ e :: l2` where `e`'s lifecycle callback throws (and the callbacks
before it are effect-free), `process` propagates the error synchronously to
its caller, invokes exactly the callbacks of `l1` and then `e` (no
snapshotted item after the failing one is visited, no retry), and leaves the
un-visited items `l2` unlinked from the live list: the live `head` and
`tail` are `undefined`, nothing is re-queued.  The batch queue behaves the
same way: `flushBatch` errors propagate out of `process`, the items after
the failing one are not flushed, and the live sequence stays empty. -/
theorem c8_error_propagation {l1 l2 : List Nat} {e : Nat} {cb : Nat → CbAct}
    (nd : (l1 ++ e :: l2).Nodup) (hcb : ∀ n ∈ l1, cb n = CbAct.pure)
    (hth : cb e = CbAct.throwE) {rf wf : Nat} (hrf : 1 ≤ rf)
    (hwf : (l1 ++ e :: l2).length ≤ wf) :
    (∃ s, addList initQ (l1 ++ e :: l2) = Except.ok s ∧
      ∃ s1, processQ cb (fun n => n) rf wf s [] =
          some (Except.error QErr.thrown, s1, l1 ++ [e]) ∧
        s1.head = none ∧ s1.tail = none ∧ ∀ n ∈ l2, n ∉ l1 ++ [e]) ∧
    (∀ (f m : Nat) (d : Int) (fuel : Nat), 1 ≤ fuel →
      bProcess cb m f fuel { queue := l1 ++ e :: l2, depth := d } [] =
        some (Except.error QErr.thrown, { queue := [], depth := d },
          (l1 ++ [e]).map (fun i => (i, f ||| m)))) := by
  constructor
  · obtain ⟨s, hadd, hrep⟩ := addList_repQ nd
    obtain ⟨s1, hproc, hh1, ht1⟩ := processQ_err (fun n => n) hrep nd hcb hth hrf hwf []
    refine ⟨s, hadd, s1, ?_, hh1, ht1, ?_⟩
    · rw [hproc]
      simp
    · intro n hn hmem
      have nd2' : (e :: l2).Nodup := List.Nodup.of_append_right nd
      have disj : List.Disjoint l1 (e :: l2) := List.disjoint_of_nodup_append nd
      rcases List.mem_append.mp hmem with h1 | h2
      · exact disj h1 (List.mem_cons_of_mem _ hn)
      · have : n = e := by simpa using h2
        exact (List.nodup_cons.mp nd2').1 (this ▸ hn)
  · intro f m d fuel hfuel
    rcases fuel with _ | fuel
    · exact absurd hfuel (by simp)
    have hr := bRound_err hth (f ||| m) l1 l2 { queue := [], depth := d } [] hcb
    rcases hcs : l1 ++ e :: l2 with _ | ⟨a, t⟩
    · exact absurd hcs (by simp)
    show bLoop cb (f ||| m) (fuel + 1) { queue := a :: t, depth := d } [] = _
    rw [hcs] at hr
    simp [bLoop, hr]

/-- C8 witness: queue 1, 2, 3 where 2's callback throws — both the phase
queue and the batch queue stop at 2 and surface the error. -/
theorem c8_witness :
    ([1] ++ 2 :: [3] : List Nat).Nodup ∧
    ((∃ s, addList initQ ([1] ++ 2 :: [3]) = Except.ok s ∧
      ∃ s1, processQ (cbThrowAt 2) (fun n => n) 2 3 s [] =
          some (Except.error QErr.thrown, s1, [1] ++ [2]) ∧
        s1.head = none ∧ s1.tail = none ∧ ∀ n ∈ [3], n ∉ [1] ++ [2]) ∧
    (∀ (f m : Nat) (d : Int) (fuel : Nat), 1 ≤ fuel →
      bProcess (cbThrowAt 2) m f fuel { queue := [1] ++ 2 :: [3], depth := d } [] =
        some (Except.error QErr.thrown, { queue := [], depth := d },
          ([1] ++ [2]).map (fun i => (i, f ||| m))))) :=
  ⟨by decide,
    c8_error_propagation (by decide)
      (fun n hn => by
        have : n = 1 := by simpa using hn
        rw [this]
        rfl)
      rfl (by decide) (by decide)⟩
